import Mathlib

/-!
Shallow embedding of the document-analysis and positional search-index core
of the snip repository (src/snip/doc.rs, src/snip/analysis.rs,
src/snip/search.rs), together with theorems settling the specification
claims about it.

Modelling conventions:
* Rust `String` / `&str` text is `List Char`; byte offsets become character
  offsets (the analysed texts are ASCII in every concrete scenario, and the
  slicing logic is structurally identical).
* `u64` / `usize` become `Nat`; overflow is modelled explicitly where the
  source can observe it (decimal parsing rejects values at or above 2^64,
  as Rust's parse::<u64> does).
* Fallible operations return `Option` / `Except`; a Rust panic
  (`.expect(...)`) is modelled as the `none` case of an outer `Option`.
* The SQLite table snip_index_rs is a `List IndexRow`; SQL statements
  become the corresponding list operations (DELETE WHERE = filter out,
  INSERT = append, SELECT WHERE = filter).
-/

/-! ### Decimal encoding of position lists (analysis.rs, WordIndex) -/

/-- Character for a single decimal digit value, as produced by Rust's
u64 Display implementation digit by digit. -/
def digitChar (d : Nat) : Char := Char.ofNat (48 + d)

/-- Least-significant-first decimal digits of `n`, with structural fuel
(the fuel is always sufficient when it is at least `n`). -/
def natToCharsAux : Nat → Nat → List Char
  | 0, _ => []
  | _, 0 => []
  | fuel + 1, n + 1 => digitChar ((n + 1) % 10) :: natToCharsAux fuel ((n + 1) / 10)

/-- Decimal rendering of a natural number, modelling Rust's `u64::to_string`:
most-significant digit first, and 0 renders as "0". -/
def natToChars (n : Nat) : List Char :=
  if n = 0 then ['0'] else (natToCharsAux n n).reverse

lemma natToCharsAux_eq (fuel : Nat) :
    ∀ n, n ≤ fuel → natToCharsAux fuel n = (Nat.digits 10 n).map digitChar := by
  induction fuel with
  | zero =>
    intro n hn
    interval_cases n
    simp [natToCharsAux]
  | succ fuel ih =>
    intro n hn
    cases n with
    | zero => simp [natToCharsAux]
    | succ m =>
      have hq : (m + 1) / 10 ≤ fuel := by
        have h1 : (m + 1) / 10 ≤ (fuel + 1) / 10 := Nat.div_le_div_right hn
        have h2 : (fuel + 1) / 10 ≤ fuel := by omega
        omega
      rw [natToCharsAux, ih ((m + 1) / 10) hq,
        Nat.digits_def' (by norm_num : 1 < 10) (Nat.succ_pos m)]
      simp

lemma natToChars_eq_digits (n : Nat) :
    natToChars n = if n = 0 then ['0'] else ((Nat.digits 10 n).map digitChar).reverse := by
  unfold natToChars
  by_cases h : n = 0
  · simp [h]
  · rw [if_neg h, if_neg h, natToCharsAux_eq n n (le_refl n)]

/-- Is this character an ASCII decimal digit? -/
def isDigitCh (c : Char) : Bool := decide (48 ≤ c.toNat ∧ c.toNat ≤ 57)

/-- Numeric value of an ASCII digit character. -/
def digitVal (c : Char) : Nat := c.toNat - 48

/-- Accumulate the value of a most-significant-first digit string. -/
def parseNatCore (cs : List Char) : Nat :=
  cs.foldl (fun acc c => acc * 10 + digitVal c) 0

/-- Model of Rust's `str::parse::<u64>`: accepts an optional leading '+'
followed by a non-empty run of decimal digits whose value fits in a u64;
everything else is an error (`none`). -/
def parseU64 (cs : List Char) : Option Nat :=
  let ds := if cs.head? = some '+' then cs.tail else cs
  if ds ≠ [] ∧ ds.all isDigitCh ∧ parseNatCore ds < 2 ^ 64 then
    some (parseNatCore ds)
  else none

/-- Model of Rust's `Vec::join(",")` on rendered chunks. -/
def joinComma : List (List Char) → List Char
  | [] => []
  | [p] => p
  | p :: q :: rest => p ++ ',' :: joinComma (q :: rest)

/-- Model of Rust's `str::split(',')`: splitting the empty string yields
one empty field, and every comma separates two fields. -/
def splitComma : List Char → List (List Char)
  | [] => [[]]
  | c :: rest =>
    if c = ',' then [] :: splitComma rest
    else (c :: (splitComma rest).headI) :: (splitComma rest).tail

/-- Model of a Rust `for`-loop that maps a fallible operation over a list,
returning the first error (used for parsing each comma-separated field). -/
def mapMOpt (f : α → Option β) : List α → Option (List β)
  | [] => some []
  | a :: l =>
    match f a, mapMOpt f l with
    | some b, some bs => some (b :: bs)
    | _, _ => none

/-- WordIndex::positions_to_string (analysis.rs line 134): render each
position in decimal and join with commas. -/
def positions_to_string (ps : List Nat) : List Char :=
  joinComma (ps.map natToChars)

/-- WordIndex::positions_to_u64 (analysis.rs line 139): split on commas and
parse every field as a u64, propagating the first parse error. -/
def positions_to_u64 (cs : List Char) : Option (List Nat) :=
  mapMOpt parseU64 (splitComma cs)

/-! ### Lemmas about the decimal encoding -/

lemma digitVal_digitChar : ∀ d, d < 10 → digitVal (digitChar d) = d := by decide

lemma isDigitCh_digitChar : ∀ d, d < 10 → isDigitCh (digitChar d) = true := by decide

lemma digitChar_ne_plus : ∀ d, d < 10 → digitChar d ≠ '+' := by decide

lemma parseNatCore_append (xs : List Char) (c : Char) :
    parseNatCore (xs ++ [c]) = parseNatCore xs * 10 + digitVal c := by
  simp [parseNatCore, List.foldl_append]

lemma parseNatCore_revmap (L : List Nat) (h : ∀ d ∈ L, d < 10) :
    parseNatCore ((L.map digitChar).reverse) = Nat.ofDigits 10 L := by
  induction L with
  | nil => simp [parseNatCore, Nat.ofDigits_nil]
  | cons d L ih =>
    have hd : d < 10 := h d (List.mem_cons_self d L)
    have hL : ∀ x ∈ L, x < 10 := fun x hx => h x (List.mem_cons_of_mem d hx)
    simp only [List.map_cons, List.reverse_cons, parseNatCore_append, ih hL,
      Nat.ofDigits_cons, digitVal_digitChar d hd]
    ring

lemma natToChars_ne_nil (n : Nat) : natToChars n ≠ [] := by
  rw [natToChars_eq_digits]
  split
  · simp
  · intro h
    have hd : Nat.digits 10 n ≠ [] := by
      simpa [Nat.digits_ne_nil_iff_ne_zero] using (by assumption : ¬ n = 0)
    simp_all

lemma natToChars_all_digits (n : Nat) : ∀ c ∈ natToChars n, isDigitCh c = true := by
  intro c hc
  rw [natToChars_eq_digits] at hc
  split at hc
  · simp at hc
    subst hc
    decide
  · simp only [List.mem_reverse, List.mem_map] at hc
    obtain ⟨d, hd, rfl⟩ := hc
    exact isDigitCh_digitChar d (Nat.digits_lt_base (by norm_num) hd)

lemma natToChars_head_ne_plus (n : Nat) : ¬ ((natToChars n).head? = some '+') := by
  cases h : natToChars n with
  | nil => simp
  | cons c cs =>
    have hc : isDigitCh c = true := by
      apply natToChars_all_digits n
      rw [h]; exact List.mem_cons_self c cs
    simp only [List.head?_cons, Option.some.injEq]
    intro hceq
    subst hceq
    simp [isDigitCh] at hc

lemma parseNatCore_natToChars (n : Nat) : parseNatCore (natToChars n) = n := by
  by_cases h0 : n = 0
  · subst h0; decide
  · rw [natToChars_eq_digits, if_neg h0]
    rw [parseNatCore_revmap (Nat.digits 10 n)
      (fun d hd => Nat.digits_lt_base (by norm_num) hd)]
    exact Nat.ofDigits_digits 10 n

lemma parseU64_natToChars (n : Nat) (h : n < 2 ^ 64) :
    parseU64 (natToChars n) = some n := by
  have hplus := natToChars_head_ne_plus n
  have hall : (natToChars n).all isDigitCh = true :=
    List.all_eq_true.mpr (natToChars_all_digits n)
  have hcore := parseNatCore_natToChars n
  simp only [parseU64, if_neg hplus]
  rw [if_pos ⟨natToChars_ne_nil n, hall, by rw [hcore]; exact h⟩, hcore]

lemma comma_not_mem_natToChars (n : Nat) : ',' ∉ natToChars n := by
  intro hmem
  have := natToChars_all_digits n ',' hmem
  simp [isDigitCh] at this

lemma splitComma_ne_nil (cs : List Char) : splitComma cs ≠ [] := by
  cases cs with
  | nil => simp [splitComma]
  | cons c rest =>
    unfold splitComma
    split <;> simp

lemma splitComma_cons (c : Char) (rest : List Char) :
    splitComma (c :: rest) =
      if c = ',' then [] :: splitComma rest
      else (c :: (splitComma rest).headI) :: (splitComma rest).tail := rfl

lemma splitComma_no_comma (p : List Char) (h : ',' ∉ p) : splitComma p = [p] := by
  induction p with
  | nil => rfl
  | cons c rest ih =>
    have hc : ¬ c = ',' := fun hc => h (hc ▸ List.mem_cons_self c rest)
    have hrest : ',' ∉ rest := fun hr => h (List.mem_cons_of_mem c hr)
    rw [splitComma_cons, if_neg hc, ih hrest]
    rfl

lemma splitComma_append (p t : List Char) (h : ',' ∉ p) :
    splitComma (p ++ ',' :: t) = p :: splitComma t := by
  induction p with
  | nil => simp [splitComma_cons]
  | cons c rest ih =>
    have hc : ¬ c = ',' := fun hc => h (hc ▸ List.mem_cons_self c rest)
    have hrest : ',' ∉ rest := fun hr => h (List.mem_cons_of_mem c hr)
    have ih' := ih hrest
    rw [List.cons_append, splitComma_cons, if_neg hc, ih']
    rfl

lemma splitComma_joinComma (parts : List (List Char)) (hne : parts ≠ [])
    (hnc : ∀ p ∈ parts, ',' ∉ p) :
    splitComma (joinComma parts) = parts := by
  induction parts with
  | nil => exact absurd rfl hne
  | cons p rest ih =>
    cases rest with
    | nil =>
      simp only [joinComma]
      exact splitComma_no_comma p (hnc p (List.mem_cons_self p []))
    | cons q rest' =>
      have hp : ',' ∉ p := hnc p (List.mem_cons_self p _)
      have hrest : ∀ x ∈ q :: rest', ',' ∉ x :=
        fun x hx => hnc x (List.mem_cons_of_mem p hx)
      simp only [joinComma]
      rw [splitComma_append _ _ hp, ih (by simp) hrest]

lemma mapMOpt_natToChars (ps : List Nat) (hb : ∀ p ∈ ps, p < 2 ^ 64) :
    mapMOpt parseU64 (ps.map natToChars) = some ps := by
  induction ps with
  | nil => rfl
  | cons n rest ih =>
    have hn : n < 2 ^ 64 := hb n (List.mem_cons_self n rest)
    have hrest : ∀ p ∈ rest, p < 2 ^ 64 :=
      fun p hp => hb p (List.mem_cons_of_mem n hp)
    simp only [List.map_cons, mapMOpt, parseU64_natToChars n hn, ih hrest]

/-- Claim C8, main theorem: the comma-separated decimal encoding of a
non-empty list of u64 positions is lossless: parsing the rendered string
recovers the original list. -/
theorem claim_C8_roundtrip (ps : List Nat) (hne : ps ≠ [])
    (hb : ∀ p ∈ ps, p < 2 ^ 64) :
    positions_to_u64 (positions_to_string ps) = some ps := by
  unfold positions_to_u64 positions_to_string
  rw [splitComma_joinComma (ps.map natToChars)
    (by simpa using hne)
    (by
      intro p hp
      simp only [List.mem_map] at hp
      obtain ⟨n, _, rfl⟩ := hp
      exact comma_not_mem_natToChars n)]
  exact mapMOpt_natToChars ps hb

/-- Claim C8, witness: the concrete scenario from the spec, positions
[0, 217] render as "0,217" and parse back to [0, 217]. -/
theorem claim_C8_witness :
    ([0, 217] ≠ ([] : List Nat)) ∧ (∀ p ∈ [0, 217], p < 2 ^ 64) ∧
    positions_to_u64 (positions_to_string [0, 217]) = some [0, 217] ∧
    positions_to_string [0, 217] = ['0', ',', '2', '1', '7'] :=
  ⟨by decide, by decide,
   claim_C8_roundtrip [0, 217] (by decide) (by decide), by decide⟩

/-! ### Data model (analysis.rs, doc.rs) -/

/-- Document identifiers. The core receives fully-resolved UUIDs and only
compares them for equality, so they are modelled as an abstract numeric
identity (uuid string parsing is outside the core). -/
abbrev Uuid := Nat

/-- WordIndex (analysis.rs): per-term aggregate for one document. -/
structure WordIndex where
  count : Nat
  positions : List Nat
  term : List Char
deriving DecidableEq

/-- SnipWord (doc.rs construction site): one analyzed token. The fields
named prefix and suffix in the source are called pre and suf here; offset
is the token's first-character offset in the original text, populated by
split_words and consumed by scan_fragments. -/
structure SnipWord where
  word : List Char
  stem : List Char
  pre : Option (List Char)
  suf : Option (List Char)
  index : Option WordIndex
  offset : Nat
deriving DecidableEq

/-! ### Tokenizer (Snip::split_words, doc.rs line 214)

The source delegates segmentation to the unicode-segmentation crate's
unicode_word_indices. That external iterator is modelled here as maximal
runs of alphanumeric characters with their start offsets, which coincides
with Unicode word segmentation on the alphanumeric/space/punctuation texts
the analysis operates on. -/

/-- A character that belongs to a word token. -/
def isWordChar (c : Char) : Bool := c.isAlphanum

/-- Scanner for word tokens: walks the remaining characters at offset i,
carrying the (reversed) run of word characters begun at offset st.
An empty run means no token is in progress. -/
def splitGo : List Char → Nat → Nat → List Char → List SnipWord
  | [], _, st, run =>
    if run = [] then [] else [⟨run.reverse, [], none, none, none, st⟩]
  | c :: rest, i, st, run =>
    if isWordChar c then
      splitGo rest (i + 1) (if run = [] then i else st) (c :: run)
    else
      (if run = [] then [] else [⟨run.reverse, [], none, none, none, st⟩])
        ++ splitGo rest (i + 1) 0 []

/-- Snip::split_words (doc.rs line 214): tokenize the document text into
SnipWords with empty stem, no fragments, and recorded offsets. -/
def split_words (text : List Char) : List SnipWord := splitGo text 0 0 []

/-- Snip::stem_words (doc.rs line 236): lowercase each token, normalize the
Unicode right single quotation mark to an ASCII apostrophe, and apply the
English stemmer. The stemmer itself is the external rust_stemmers crate,
abstracted as a function parameter (it is deterministic and total). -/
def stem_words (stemmer : List Char → List Char) (words : List SnipWord) :
    List SnipWord :=
  words.map fun w =>
    { w with
      stem := stemmer ((w.word.map Char.toLower).map
        fun c => if c = '’' then Char.ofNat 39 else c) }

/-! ### Fragment scanner (Snip::scan_fragments, doc.rs line 145) -/

/-- The substring of text from offset a (inclusive) to b (exclusive),
once the bounds are known to be valid. -/
def extractTx (text : List Char) (a b : Nat) : List Char :=
  (text.drop a).take (b - a)

/-- Model of Rust's `str::get(a..b)`: `none` when the range is invalid. -/
def sliceTx (text : List Char) (a b : Nat) : Option (List Char) :=
  if a ≤ b ∧ b ≤ text.length then some (extractTx text a b) else none

/-- The windows(2) loop of scan_fragments: for each adjacent token pair,
compute the pair's prefix (carried from the previous suffix when one
exists) and suffix (the slice between the tokens), threading the running
offset and the last computed suffix exactly as the source does. Inside
windows(2) the next token always exists, so the loop's text-length default
for offset_next is never taken. Returns (prefixes, suffixes). -/
def scanLoop (text : List Char) :
    List SnipWord → Nat → Option (List Char) →
      List (Option (List Char)) × List (Option (List Char))
  | w0 :: w1 :: rest, offset, suffix_last =>
    let pre : Option (List Char) :=
      match suffix_last with
      | some s => some s
      | none => sliceTx text offset w0.offset
    let suf : Option (List Char) :=
      sliceTx text (w0.offset + w0.word.length) w1.offset
    let suffix_last' : Option (List Char) :=
      match suf with
      | some s => some s
      | none => suffix_last
    let r := scanLoop text (w1 :: rest) (w0.offset + w0.word.length) suffix_last'
    (pre :: r.1, suf :: r.2)
  | _, _, _ => ([], [])

/-- The push of the final token's suffix (doc.rs line 194): everything from
the end of the last token to the end of the text, pushed only when the
slice succeeds. -/
def lastSufPart (text : List Char) (words : List SnipWord) :
    List (Option (List Char)) :=
  match words.getLast? with
  | none => []
  | some lw =>
    match sliceTx text (lw.offset + lw.word.length) text.length with
    | none => []
    | some s => [some s]

/-- The prefix assignment loop (doc.rs line 202): words beyond the computed
list keep their previous field. -/
def assignPre : List SnipWord → List (Option (List Char)) → List SnipWord
  | ws, [] => ws
  | [], _ :: _ => []
  | w :: ws, p :: ps => { w with pre := p } :: assignPre ws ps

/-- The suffix assignment loop (doc.rs line 206). -/
def assignSuf : List SnipWord → List (Option (List Char)) → List SnipWord
  | ws, [] => ws
  | [], _ :: _ => []
  | w :: ws, s :: ss => { w with suf := s } :: assignSuf ws ss

/-- Snip::scan_fragments (doc.rs line 145): compute prefixes and suffixes
with the pairwise loop, append the final token's suffix, then assign both
lists positionally onto the words. -/
def scan_fragments (text : List Char) (words : List SnipWord) : List SnipWord :=
  let pr := scanLoop text words 0 none
  assignSuf (assignPre words pr.1) (pr.2 ++ lastSufPart text words)

/-- Snip::analyze (doc.rs line 25): split, stem, scan. -/
def analyze (stemmer : List Char → List Char) (text : List Char) :
    List SnipWord :=
  scan_fragments text (stem_words stemmer (split_words text))

/-- Document reconstruction from an analyzed sequence, as specified: the
first token's prefix, then every token's word followed by its suffix,
missing fragments read as empty. -/
def reconstruct (ws : List SnipWord) : List Char :=
  (match ws.head? with
   | some w => w.pre.getD []
   | none => []) ++
  (ws.map fun w => w.word ++ w.suf.getD []).flatten

/-! ### Validity of token offsets and the reconstruction argument -/

/-- A token list is offset-valid from position pos: offsets are
non-decreasing past pos, every token's word is exactly the text slice at
its offset, and the tokens end within the text. -/
inductive Covers (text : List Char) : Nat → List SnipWord → Prop
  | nil (pos : Nat) (h : pos ≤ text.length) : Covers text pos []
  | cons (pos : Nat) (w : SnipWord) (ws : List SnipWord)
      (hpos : pos ≤ w.offset)
      (hslice : sliceTx text w.offset (w.offset + w.word.length) = some w.word)
      (hrest : Covers text (w.offset + w.word.length) ws) :
      Covers text pos (w :: ws)

lemma sliceTx_some (text : List Char) (a b : Nat) (l : List Char)
    (h : sliceTx text a b = some l) :
    a ≤ b ∧ b ≤ text.length ∧ l = extractTx text a b := by
  unfold sliceTx at h
  split at h
  · exact ⟨(by assumption : a ≤ b ∧ b ≤ text.length).1,
      (by assumption : a ≤ b ∧ b ≤ text.length).2, (Option.some.inj h).symm⟩
  · exact absurd h (by simp)

lemma sliceTx_of_le (text : List Char) (a b : Nat) (h1 : a ≤ b)
    (h2 : b ≤ text.length) : sliceTx text a b = some (extractTx text a b) := by
  unfold sliceTx
  rw [if_pos ⟨h1, h2⟩]

lemma Covers.mono (text : List Char) (p q : Nat) (ws : List SnipWord)
    (h : Covers text p ws) (hq : q ≤ p) : Covers text q ws := by
  cases h with
  | nil _ hle => exact Covers.nil q (le_trans hq hle)
  | cons _ w ws hpos hslice hrest =>
    exact Covers.cons q w ws (le_trans hq hpos) hslice hrest

lemma drop_eq_extract_append (text : List Char) (a b : Nat) (h1 : a ≤ b)
    (h2 : b ≤ text.length) :
    text.drop a = extractTx text a b ++ text.drop b := by
  unfold extractTx
  conv_lhs => rw [← List.take_append_drop (b - a) (text.drop a)]
  rw [List.drop_drop]
  have hba : a + (b - a) = b := by omega
  rw [hba]

lemma extract_length (text : List Char) (a b : Nat) (h1 : a ≤ b)
    (h2 : b ≤ text.length) : (extractTx text a b).length = b - a := by
  unfold extractTx
  rw [List.length_take, List.length_drop]
  exact Nat.min_eq_left (by omega)

lemma extract_to_length (text : List Char) (a : Nat) :
    extractTx text a text.length = text.drop a := by
  unfold extractTx
  apply List.take_of_length_le
  rw [List.length_drop]

/-- The canonical decomposition of the text induced by a token list:
the gap before each token, the token itself, and finally the tail of the
text after the last token. -/
def chunks (text : List Char) : Nat → List SnipWord → List Char
  | pos, [] => text.drop pos
  | pos, w :: ws =>
    extractTx text pos w.offset ++ w.word ++
      chunks text (w.offset + w.word.length) ws

lemma chunks_eq_drop (text : List Char) :
    ∀ ws pos, Covers text pos ws → chunks text pos ws = text.drop pos := by
  intro ws
  induction ws with
  | nil => intro pos _; rfl
  | cons w ws ih =>
    intro pos h
    cases h with
    | cons _ _ _ hpos hslice hrest =>
      obtain ⟨hab, hblen, hval⟩ := sliceTx_some _ _ _ _ hslice
      have hoff_len : w.offset ≤ text.length := le_trans hab hblen
      rw [chunks, ih _ hrest,
        drop_eq_extract_append text pos w.offset hpos hoff_len,
        drop_eq_extract_append text w.offset (w.offset + w.word.length)
          hab hblen, ← hval, List.append_assoc]

/-- The pairwise suffix slices computed by the windows(2) loop; they do not
depend on the running offset or carried suffix. -/
def pairSlices (text : List Char) : List SnipWord → List (Option (List Char))
  | w0 :: w1 :: rest =>
    sliceTx text (w0.offset + w0.word.length) w1.offset :: pairSlices text (w1 :: rest)
  | _ => []

/-- The gap after each token: up to the next token's offset, and for the
final token up to the end of the text. -/
def segList (text : List Char) : List SnipWord → List (List Char)
  | [] => []
  | [w] => [extractTx text (w.offset + w.word.length) text.length]
  | w0 :: w1 :: rest =>
    extractTx text (w0.offset + w0.word.length) w1.offset :: segList text (w1 :: rest)

lemma segList_length (text : List Char) :
    ∀ ws : List SnipWord, (segList text ws).length = ws.length := by
  intro ws
  induction ws with
  | nil => rfl
  | cons w tail ih =>
    cases tail with
    | nil => rfl
    | cons w1 rest =>
      simp only [segList, List.length_cons]
      rw [ih]
      simp

lemma scanLoop_snd (text : List Char) :
    ∀ (ws : List SnipWord) (off : Nat) (sl : Option (List Char)),
      (scanLoop text ws off sl).2 = pairSlices text ws := by
  intro ws
  induction ws with
  | nil => intro off sl; rfl
  | cons w0 tail ih =>
    cases tail with
    | nil => intro off sl; rfl
    | cons w1 rest =>
      intro off sl
      simp only [scanLoop, pairSlices]
      rw [ih]

lemma scanLoop_fst_length (text : List Char) :
    ∀ (ws : List SnipWord) (off : Nat) (sl : Option (List Char)),
      (scanLoop text ws off sl).1.length = ws.length - 1 := by
  intro ws
  induction ws with
  | nil => intro off sl; rfl
  | cons w0 tail ih =>
    cases tail with
    | nil => intro off sl; rfl
    | cons w1 rest =>
      intro off sl
      simp only [scanLoop, List.length_cons]
      rw [ih]
      simp

lemma pairSlices_lastSuf (text : List Char) :
    ∀ (ws : List SnipWord) (pos : Nat), Covers text pos ws →
      pairSlices text ws ++ lastSufPart text ws = (segList text ws).map some := by
  intro ws
  induction ws with
  | nil => intro pos _; rfl
  | cons w tail ih =>
    cases tail with
    | nil =>
      intro pos h
      cases h with
      | cons _ _ _ hpos hslice hrest =>
        obtain ⟨hab, hble, hval⟩ := sliceTx_some _ _ _ _ hslice
        simp only [pairSlices, segList, lastSufPart, List.getLast?_singleton,
          List.map_cons, List.map_nil, List.nil_append]
        rw [sliceTx_of_le text _ _ hble (le_refl _)]
    | cons w1 rest =>
      intro pos h
      cases h with
      | cons _ _ _ hpos hslice hrest =>
        have hrest' := hrest
        cases hrest with
        | cons _ _ _ hpos1 hslice1 hrest1 =>
          obtain ⟨hab1, hble1, _⟩ := sliceTx_some _ _ _ _ hslice1
          have ho1len : w1.offset ≤ text.length := le_trans hab1 hble1
          have hlast : lastSufPart text (w :: w1 :: rest) = lastSufPart text (w1 :: rest) := by
            simp only [lastSufPart, List.getLast?_cons_cons]
          simp only [pairSlices, segList, List.map_cons, List.cons_append]
          rw [sliceTx_of_le text _ _ hpos1 ho1len, hlast, ih _ hrest']

lemma flatten_zip_chunks (text : List Char) :
    ∀ (ws : List SnipWord) (w : SnipWord) (pos : Nat),
      Covers text pos (w :: ws) →
      (List.zipWith (fun (x : SnipWord) (s : List Char) => x.word ++ s)
        (w :: ws) (segList text (w :: ws))).flatten
      = w.word ++ chunks text (w.offset + w.word.length) ws := by
  intro ws
  induction ws with
  | nil =>
    intro w pos h
    cases h with
    | cons _ _ _ hpos hslice hrest =>
      simp only [segList, List.zipWith_cons_cons, List.zipWith_nil_right,
        List.flatten_cons, List.flatten_nil, List.append_nil]
      rw [extract_to_length]
      rfl
  | cons w1 rest ih =>
    intro w pos h
    cases h with
    | cons _ _ _ hpos hslice hrest =>
      simp only [segList, List.zipWith_cons_cons, List.flatten_cons]
      rw [ih w1 _ hrest]
      simp only [chunks]
      simp [List.append_assoc]

lemma assignPre_length :
    ∀ (ws : List SnipWord) (ps : List (Option (List Char))),
      (assignPre ws ps).length = ws.length := by
  intro ws
  induction ws with
  | nil => intro ps; cases ps <;> rfl
  | cons w tail ih =>
    intro ps
    cases ps with
    | nil => rfl
    | cons p ps' => simp only [assignPre, List.length_cons]; rw [ih]

lemma zip_word_assignPre :
    ∀ (ws : List SnipWord) (ps : List (Option (List Char))) (segs : List (List Char)),
      List.zipWith (fun (x : SnipWord) (s : List Char) => x.word ++ s)
        (assignPre ws ps) segs
      = List.zipWith (fun (x : SnipWord) (s : List Char) => x.word ++ s) ws segs := by
  intro ws
  induction ws with
  | nil => intro ps segs; cases ps <;> rfl
  | cons w tail ih =>
    intro ps segs
    cases ps with
    | nil => rfl
    | cons p ps' =>
      cases segs with
      | nil => rfl
      | cons s segs' =>
        simp only [assignPre, List.zipWith_cons_cons]
        rw [ih]

lemma flatten_assignSuf :
    ∀ (ws : List SnipWord) (segs : List (List Char)), segs.length = ws.length →
      ((assignSuf ws (segs.map some)).map (fun w => w.word ++ w.suf.getD [])).flatten
      = (List.zipWith (fun (x : SnipWord) (s : List Char) => x.word ++ s) ws segs).flatten := by
  intro ws
  induction ws with
  | nil =>
    intro segs hlen
    have : segs = [] := List.length_eq_zero.mp hlen
    subst this
    rfl
  | cons w tail ih =>
    intro segs hlen
    cases segs with
    | nil => simp at hlen
    | cons s segs' =>
      simp only [List.map_cons, assignSuf, List.zipWith_cons_cons, List.flatten_cons]
      rw [ih segs' (by simpa using hlen)]
      rfl

lemma extract_append (text : List Char) (a b c : Nat) (h1 : a ≤ b) (h2 : b ≤ c)
    (h3 : c ≤ text.length) :
    extractTx text a c = extractTx text a b ++ extractTx text b c := by
  have hblen : b ≤ text.length := le_trans h2 h3
  have hd1 : text.drop a = extractTx text a b ++ text.drop b :=
    drop_eq_extract_append text a b h1 hblen
  have hlen : (extractTx text a b).length = b - a := extract_length text a b h1 hblen
  show (text.drop a).take (c - a) = extractTx text a b ++ (text.drop b).take (c - b)
  rw [hd1, show c - a = (extractTx text a b).length + (c - b) by rw [hlen]; omega,
    List.take_append]

lemma splitGo_covers (text : List Char) :
    ∀ (cs : List Char) (i st : Nat) (run : List Char),
      cs = text.drop i → i ≤ text.length →
      (run = [] ∨ (st + run.length = i ∧ sliceTx text st i = some run.reverse)) →
      Covers text (if run = [] then i else st) (splitGo cs i st run) := by
  intro cs
  induction cs with
  | nil =>
    intro i st run hcs hlen hinv
    by_cases hr : run = []
    · subst hr
      simp only [splitGo, if_pos rfl]
      exact Covers.nil i hlen
    · obtain ⟨hleni, hsl⟩ := hinv.resolve_left hr
      simp only [splitGo, if_neg hr]
      have hlr : st + (run.reverse).length = i := by
        rw [List.length_reverse]; exact hleni
      apply Covers.cons st _ _ (le_refl st)
      · show sliceTx text st (st + run.reverse.length) = some run.reverse
        rw [hlr]; exact hsl
      · show Covers text (st + run.reverse.length) []
        rw [hlr]; exact Covers.nil i hlen
  | cons c rest ih =>
    intro i st run hcs hlen hinv
    have hi_lt : i < text.length := by
      by_contra hge
      push_neg at hge
      have hdnil : text.drop i = [] := List.drop_eq_nil_of_le hge
      rw [hdnil] at hcs
      simp at hcs
    have hdrop1 : rest = text.drop (i + 1) := by
      have ht := List.tail_drop text i
      rw [← hcs] at ht
      simpa using ht
    have hextr : extractTx text i (i + 1) = [c] := by
      unfold extractTx
      rw [← hcs]
      simp
    have hslice_i : sliceTx text i (i + 1) = some [c] := by
      rw [sliceTx_of_le text i (i + 1) (by omega) (by omega), hextr]
    by_cases hw : isWordChar c
    · simp only [splitGo, if_pos hw]
      have hinv' : (c :: run) = [] ∨
          ((if run = [] then i else st) + (c :: run).length = i + 1 ∧
           sliceTx text (if run = [] then i else st) (i + 1) = some (c :: run).reverse) := by
        right
        by_cases hr : run = []
        · subst hr
          simp only [if_pos rfl]
          exact ⟨by simp, by simpa using hslice_i⟩
        · obtain ⟨hleni, hsl⟩ := hinv.resolve_left hr
          obtain ⟨hst_i, hi_le, hval⟩ := sliceTx_some _ _ _ _ hsl
          simp only [if_neg hr]
          constructor
          · simp only [List.length_cons]; omega
          · rw [sliceTx_of_le text st (i + 1) (by omega) (by omega)]
            rw [extract_append text st i (i + 1) hst_i (by omega) (by omega),
              ← hval, hextr]
            simp
      have hrec := ih (i + 1) (if run = [] then i else st) (c :: run) hdrop1
        (by omega) hinv'
      simpa using hrec
    · simp only [splitGo, if_neg hw]
      have hrec := ih (i + 1) 0 [] hdrop1 (by omega) (Or.inl rfl)
      simp only [if_pos rfl] at hrec
      by_cases hr : run = []
      · subst hr
        simp only [if_pos rfl, List.nil_append]
        exact Covers.mono text (i + 1) i _ hrec (by omega)
      · obtain ⟨hleni, hsl⟩ := hinv.resolve_left hr
        simp only [if_neg hr, List.singleton_append]
        have hlr : st + (run.reverse).length = i := by
          rw [List.length_reverse]; exact hleni
        apply Covers.cons st _ _ (le_refl st)
        · show sliceTx text st (st + run.reverse.length) = some run.reverse
          rw [hlr]; exact hsl
        · show Covers text (st + run.reverse.length) (splitGo rest (i + 1) 0 [])
          rw [hlr]
          exact Covers.mono text (i + 1) i _ hrec (by omega)

lemma split_words_covers (text : List Char) : Covers text 0 (split_words text) := by
  have h := splitGo_covers text text 0 0 [] (by simp) (Nat.zero_le _) (Or.inl rfl)
  simpa [split_words] using h

lemma covers_stem_words (text : List Char) (stemmer : List Char → List Char)
    (pos : Nat) (ws : List SnipWord) (h : Covers text pos ws) :
    Covers text pos (stem_words stemmer ws) := by
  induction h with
  | nil p hp => exact Covers.nil p hp
  | cons p w ws hpos hslice hrest ih =>
    simp only [stem_words, List.map_cons] at ih ⊢
    exact Covers.cons p _ _ hpos hslice ih

lemma splitGo_fields :
    ∀ (cs : List Char) (i st : Nat) (run : List Char),
      ∀ w ∈ splitGo cs i st run, w.pre = none ∧ w.suf = none := by
  intro cs
  induction cs with
  | nil =>
    intro i st run w hw
    revert hw
    simp only [splitGo]
    split
    · simp
    · intro hw
      simp at hw
      subst hw
      exact ⟨rfl, rfl⟩
  | cons c rest ih =>
    intro i st run w hw
    revert hw
    simp only [splitGo]
    split
    · intro hw
      exact ih _ _ _ w hw
    · intro hw
      rcases List.mem_append.mp hw with h1 | h2
      · revert h1
        split
        · simp
        · intro h1
          simp at h1
          subst h1
          exact ⟨rfl, rfl⟩
      · exact ih _ _ _ w h2

lemma stem_words_fields (stemmer : List Char → List Char) (ws : List SnipWord)
    (h : ∀ w ∈ ws, w.pre = none ∧ w.suf = none) :
    ∀ w ∈ stem_words stemmer ws, w.pre = none ∧ w.suf = none := by
  intro w hw
  simp only [stem_words, List.mem_map] at hw
  obtain ⟨w0, hw0, rfl⟩ := hw
  exact h w0 hw0

lemma reconstruct_cons (y : SnipWord) (ys : List SnipWord) :
    reconstruct (y :: ys) =
      y.pre.getD [] ++
        ((y :: ys).map (fun w => w.word ++ w.suf.getD [])).flatten := rfl

lemma reconstruct_scan_two (text : List Char) (w0 w1 : SnipWord)
    (rest : List SnipWord) (hcov : Covers text 0 (w0 :: w1 :: rest)) :
    reconstruct (scan_fragments text (w0 :: w1 :: rest)) = text := by
  have hc := hcov
  cases hc with
  | cons _ _ _ hpos hslice hrest =>
    obtain ⟨hab, hble, hval⟩ := sliceTx_some _ _ _ _ hslice
    have ho0len : w0.offset ≤ text.length := le_trans hab hble
    have hss : (scanLoop text (w0 :: w1 :: rest) 0 none).2
        ++ lastSufPart text (w0 :: w1 :: rest)
        = (segList text (w0 :: w1 :: rest)).map some := by
      rw [scanLoop_snd]
      exact pairSlices_lastSuf text _ 0 hcov
    have hL : scan_fragments text (w0 :: w1 :: rest)
        = assignSuf (assignPre (w0 :: w1 :: rest)
            (scanLoop text (w0 :: w1 :: rest) 0 none).1)
            ((segList text (w0 :: w1 :: rest)).map some) := by
      simp only [scan_fragments]
      rw [hss]
    obtain ⟨ps', hps⟩ : ∃ ps', (scanLoop text (w0 :: w1 :: rest) 0 none).1
        = sliceTx text 0 w0.offset :: ps' := ⟨_, rfl⟩
    obtain ⟨e0, segs', hseg⟩ : ∃ e0 segs',
        segList text (w0 :: w1 :: rest) = e0 :: segs' := ⟨_, _, rfl⟩
    have hcons : scan_fragments text (w0 :: w1 :: rest)
        = { w0 with pre := sliceTx text 0 w0.offset, suf := some e0 } ::
          assignSuf (assignPre (w1 :: rest) ps') (segs'.map some) := by
      rw [hL, hps, hseg]
      simp only [List.map_cons, assignPre, assignSuf]
    have hflat : ((assignSuf (assignPre (w0 :: w1 :: rest)
          (scanLoop text (w0 :: w1 :: rest) 0 none).1)
          ((segList text (w0 :: w1 :: rest)).map some)).map
          (fun w => w.word ++ w.suf.getD [])).flatten
        = w0.word ++ chunks text (w0.offset + w0.word.length) (w1 :: rest) := by
      rw [flatten_assignSuf _ _ (by rw [segList_length, assignPre_length])]
      rw [zip_word_assignPre]
      exact flatten_zip_chunks text (w1 :: rest) w0 0 hcov
    rw [hcons, reconstruct_cons]
    have hlist : ({ w0 with pre := sliceTx text 0 w0.offset, suf := some e0 } ::
          assignSuf (assignPre (w1 :: rest) ps') (segs'.map some))
        = assignSuf (assignPre (w0 :: w1 :: rest)
            (scanLoop text (w0 :: w1 :: rest) 0 none).1)
            ((segList text (w0 :: w1 :: rest)).map some) := by
      rw [← hcons, hL]
    rw [hlist, hflat]
    show (sliceTx text 0 w0.offset).getD [] ++ _ = text
    rw [sliceTx_of_le text 0 w0.offset (Nat.zero_le _) ho0len, Option.getD_some]
    have hch := chunks_eq_drop text (w0 :: w1 :: rest) 0 hcov
    rw [List.drop_zero] at hch
    have hgoal : extractTx text 0 w0.offset ++
        (w0.word ++ chunks text (w0.offset + w0.word.length) (w1 :: rest))
        = chunks text 0 (w0 :: w1 :: rest) := by
      simp only [chunks]
      simp [List.append_assoc]
    rw [hgoal, hch]

lemma reconstruct_scan_single (text : List Char) (w : SnipWord)
    (hcov : Covers text 0 [w]) (hoff : w.offset = 0) (hpre : w.pre = none) :
    reconstruct (scan_fragments text [w]) = text := by
  cases hcov with
  | cons _ _ _ hpos hslice hrest =>
    obtain ⟨hab, hble, hval⟩ := sliceTx_some _ _ _ _ hslice
    have hlast : lastSufPart text [w]
        = [some (extractTx text (w.offset + w.word.length) text.length)] := by
      simp only [lastSufPart, List.getLast?_singleton]
      rw [sliceTx_of_le text _ _ hble (le_refl _)]
    have hscan : scan_fragments text [w]
        = [{ w with
              suf := some (extractTx text (w.offset + w.word.length) text.length) }] := by
      simp only [scan_fragments]
      rw [hlast]
      rfl
    rw [hscan, reconstruct_cons]
    simp only [List.map_cons, List.map_nil, List.flatten_cons, List.flatten_nil,
      List.append_nil]
    show w.pre.getD [] ++ (w.word ++ _) = text
    rw [hpre, extract_to_length, hoff]
    simp only [Nat.zero_add, Option.getD_none, Option.getD_some, List.nil_append]
    have hword : w.word = text.take w.word.length := by
      rw [hval]
      unfold extractTx
      rw [hoff]
      simp
    conv_rhs => rw [← List.take_append_drop w.word.length text]
    rw [← hword]

/-- Claim C1, counterexample: for the document " a" (a single token preceded
by non-word text), analysis followed by reconstruction drops the leading
space, because scan_fragments iterates windows(2), which is empty for a
single-token document, so the lone token's prefix is never assigned. The
stemmer does not influence fragments; it is instantiated with the identity. -/
theorem claim_C1_counterexample :
    reconstruct (analyze (fun s => s) [' ', 'a']) ≠ [' ', 'a'] := by decide

/-- Claim C1, amended: round-trip reconstruction holds for every document
whose tokenization yields at least two tokens, or exactly one token starting
at offset 0, or whose text is empty. (It fails when a lone token is preceded
by non-word text, and when a token-free document is non-empty.) -/
theorem claim_C1_amended (stemmer : List Char → List Char) (text : List Char)
    (h : 2 ≤ (split_words text).length ∨
      (∃ w, split_words text = [w] ∧ w.offset = 0) ∨ text = []) :
    reconstruct (analyze stemmer text) = text := by
  have hcov : Covers text 0 (stem_words stemmer (split_words text)) :=
    covers_stem_words text stemmer 0 _ (split_words_covers text)
  show reconstruct (scan_fragments text (stem_words stemmer (split_words text))) = text
  rcases h with h2 | ⟨w, hw, hoff⟩ | hempty
  · have hlen2 : 2 ≤ (stem_words stemmer (split_words text)).length := by
      simpa [stem_words] using h2
    obtain ⟨w0, w1, rest, hws⟩ : ∃ w0 w1 rest,
        stem_words stemmer (split_words text) = w0 :: w1 :: rest := by
      cases hx : stem_words stemmer (split_words text) with
      | nil => rw [hx] at hlen2; simp at hlen2
      | cons a t =>
        cases t with
        | nil => rw [hx] at hlen2; simp at hlen2
        | cons b r => exact ⟨a, b, r, rfl⟩
    rw [hws] at hcov ⊢
    exact reconstruct_scan_two text w0 w1 rest hcov
  · have hmem : w ∈ split_words text := by
      rw [hw]; exact List.mem_cons_self w []
    have hwpre : w.pre = none :=
      (splitGo_fields text 0 0 [] w (by simpa [split_words] using hmem)).1
    obtain ⟨w', hws, hoff', hpre'⟩ : ∃ w',
        stem_words stemmer (split_words text) = [w'] ∧
        w'.offset = 0 ∧ w'.pre = none := by
      refine ⟨{ w with stem := stemmer ((w.word.map Char.toLower).map
          fun c => if c = '’' then Char.ofNat 39 else c) }, ?_, hoff, hwpre⟩
      rw [hw]
      rfl
    rw [hws] at hcov ⊢
    exact reconstruct_scan_single text w' hcov hoff' hpre'
  · subst hempty
    rfl

/-- Claim C1, witness: a two-token document reconstructs exactly. -/
theorem claim_C1_witness :
    (2 ≤ (split_words ['a', ' ', 'b']).length ∨
      (∃ w, split_words ['a', ' ', 'b'] = [w] ∧ w.offset = 0) ∨
      (['a', ' ', 'b'] : List Char) = []) ∧
    reconstruct (analyze (fun s => s) ['a', ' ', 'b']) = ['a', ' ', 'b'] :=
  ⟨Or.inl (by decide),
   claim_C1_amended (fun s => s) ['a', ' ', 'b'] (Or.inl (by decide))⟩

/-! ### Boundary sharing (Claim C6) -/

lemma scanLoop_cons_cons (text : List Char) (w0 w1 : SnipWord)
    (rest : List SnipWord) (off : Nat) (sl : Option (List Char)) :
    scanLoop text (w0 :: w1 :: rest) off sl =
      ((match sl with
        | some s => some s
        | none => sliceTx text off w0.offset) ::
          (scanLoop text (w1 :: rest) (w0.offset + w0.word.length)
            (match sliceTx text (w0.offset + w0.word.length) w1.offset with
             | some s => some s
             | none => sl)).1,
       sliceTx text (w0.offset + w0.word.length) w1.offset ::
          (scanLoop text (w1 :: rest) (w0.offset + w0.word.length)
            (match sliceTx text (w0.offset + w0.word.length) w1.offset with
             | some s => some s
             | none => sl)).2) := rfl

/-- If the suffix computed for pair i is defined, then the prefix carried to
token i+1 (when one is computed at all) is that same suffix. -/
lemma scanLoop_pre_of_suf (text : List Char) :
    ∀ (ws : List SnipWord) (off : Nat) (sl : Option (List Char)) (i : Nat)
      (s : List Char),
      (scanLoop text ws off sl).2.get? i = some (some s) →
      i + 1 < (scanLoop text ws off sl).1.length →
      (scanLoop text ws off sl).1.get? (i + 1) = some (some s) := by
  intro ws
  induction ws with
  | nil =>
    intro off sl i s hsuf hlen
    simp [scanLoop] at hlen
  | cons w0 tail ih =>
    cases tail with
    | nil =>
      intro off sl i s hsuf hlen
      simp [scanLoop] at hlen
    | cons w1 rest =>
      intro off sl i s hsuf hlen
      cases i with
      | zero =>
        have hsuf0 : sliceTx text (w0.offset + w0.word.length) w1.offset
            = some s := by
          rw [scanLoop_cons_cons] at hsuf
          simpa using hsuf
        cases rest with
        | nil =>
          exfalso
          rw [scanLoop_cons_cons] at hlen
          simp [scanLoop] at hlen
        | cons w2 rest2 =>
          rw [scanLoop_cons_cons]
          simp only [hsuf0, List.get?_cons_succ, List.get?_cons_zero]
          rw [scanLoop_cons_cons]
          rfl
      | succ j =>
        rw [scanLoop_cons_cons] at hsuf hlen ⊢
        simp only [List.get?_cons_succ, List.length_cons] at hsuf hlen ⊢
        exact ih _ _ j s hsuf (by omega)

lemma pairSlices_length (text : List Char) :
    ∀ ws : List SnipWord, (pairSlices text ws).length = ws.length - 1 := by
  intro ws
  induction ws with
  | nil => rfl
  | cons w0 tail ih =>
    cases tail with
    | nil => rfl
    | cons w1 rest =>
      simp only [pairSlices, List.length_cons]
      rw [ih]
      simp

lemma pairSlices_get? (text : List Char) :
    ∀ (ws : List SnipWord) (i : Nat) (wi wj : SnipWord),
      ws.get? i = some wi → ws.get? (i + 1) = some wj →
      (pairSlices text ws).get? i
        = some (sliceTx text (wi.offset + wi.word.length) wj.offset) := by
  intro ws
  induction ws with
  | nil => intro i wi wj h1 _; simp at h1
  | cons w0 tail ih =>
    cases tail with
    | nil =>
      intro i wi wj h1 h2
      rw [List.get?_cons_succ] at h2
      simp at h2
    | cons w1 rest =>
      intro i wi wj h1 h2
      cases i with
      | zero =>
        simp only [List.get?_cons_zero, Option.some.injEq] at h1
        rw [List.get?_cons_succ, List.get?_cons_zero] at h2
        simp only [Option.some.injEq] at h2
        subst h1
        subst h2
        rfl
      | succ j =>
        simp only [List.get?_cons_succ] at h1 h2
        simp only [pairSlices, List.get?_cons_succ]
        exact ih j wi wj h1 h2

lemma assignPre_get? :
    ∀ (ws : List SnipWord) (ps : List (Option (List Char))) (i : Nat),
      (assignPre ws ps).get? i = (ws.get? i).map (fun w =>
        match ps.get? i with
        | some p => { w with pre := p }
        | none => w) := by
  intro ws
  induction ws with
  | nil =>
    intro ps i
    cases ps with
    | nil => simp [assignPre]
    | cons p ps' => simp [assignPre]
  | cons w tail ih =>
    intro ps i
    cases ps with
    | nil =>
      show (w :: tail).get? i = _
      cases h : (w :: tail).get? i <;> simp [h]
    | cons p ps' =>
      cases i with
      | zero => rfl
      | succ j =>
        simp only [assignPre, List.get?_cons_succ]
        exact ih ps' j

lemma assignSuf_get? :
    ∀ (ws : List SnipWord) (ss : List (Option (List Char))) (i : Nat),
      (assignSuf ws ss).get? i = (ws.get? i).map (fun w =>
        match ss.get? i with
        | some s => { w with suf := s }
        | none => w) := by
  intro ws
  induction ws with
  | nil =>
    intro ss i
    cases ss with
    | nil => simp [assignSuf]
    | cons s ss' => simp [assignSuf]
  | cons w tail ih =>
    intro ss i
    cases ss with
    | nil =>
      show (w :: tail).get? i = _
      cases h : (w :: tail).get? i <;> simp [h]
    | cons s ss' =>
      cases i with
      | zero => rfl
      | succ j =>
        simp only [assignSuf, List.get?_cons_succ]
        exact ih ss' j

lemma assignSuf_length :
    ∀ (ws : List SnipWord) (ss : List (Option (List Char))),
      (assignSuf ws ss).length = ws.length := by
  intro ws
  induction ws with
  | nil => intro ss; cases ss <;> rfl
  | cons w tail ih =>
    intro ss
    cases ss with
    | nil => rfl
    | cons s ss' => simp only [assignSuf, List.length_cons]; rw [ih]


lemma scan_boundary (text : List Char) (ws : List SnipWord)
    (hfields : ∀ w ∈ ws, w.pre = none ∧ w.suf = none)
    (i : Nat) (wi wj : SnipWord) (s t : List Char)
    (hi : (scan_fragments text ws).get? i = some wi)
    (hj : (scan_fragments text ws).get? (i + 1) = some wj)
    (hs : wi.suf = some s) (ht : wj.pre = some t) :
    s = t ∧ sliceTx text (wi.offset + wi.word.length) wj.offset = some s := by
  have hsc : scan_fragments text ws
      = assignSuf (assignPre ws (scanLoop text ws 0 none).1)
          ((scanLoop text ws 0 none).2 ++ lastSufPart text ws) := rfl
  have hi' := hi
  have hj' := hj
  rw [hsc, assignSuf_get?, assignPre_get?] at hi' hj'
  have hlen_j : i + 1 < ws.length := by
    obtain ⟨hlt, -⟩ := List.get?_eq_some.mp hj
    rwa [hsc, assignSuf_length, assignPre_length] at hlt
  have hlen_loop : (scanLoop text ws 0 none).2.length = ws.length - 1 := by
    rw [scanLoop_snd]
    exact pairSlices_length text ws
  have hi_lt : i < (scanLoop text ws 0 none).2.length := by omega
  have happ : ((scanLoop text ws 0 none).2 ++ lastSufPart text ws).get? i
      = (scanLoop text ws 0 none).2.get? i := List.get?_append hi_lt
  cases hwsi : ws.get? i with
  | none => rw [hwsi] at hi'; simp at hi'
  | some wbi =>
  cases hwsj : ws.get? (i + 1) with
  | none => rw [hwsj] at hj'; simp at hj'
  | some wbj =>
  rw [hwsi] at hi'
  rw [hwsj] at hj'
  simp only [Option.map_some', Option.some.injEq] at hi' hj'
  have hpair : (scanLoop text ws 0 none).2.get? i
      = some (sliceTx text (wbi.offset + wbi.word.length) wbj.offset) := by
    rw [scanLoop_snd]
    exact pairSlices_get? text ws i wbi wbj hwsi hwsj
  have hssival : ((scanLoop text ws 0 none).2 ++ lastSufPart text ws).get? i
      = some (sliceTx text (wbi.offset + wbi.word.length) wbj.offset) := by
    rw [happ, hpair]
  have hbj_pre : wbj.pre = none := (hfields wbj (List.get?_mem hwsj)).1
  cases hpsj : (scanLoop text ws 0 none).1.get? (i + 1) with
  | none =>
    exfalso
    cases hssj : ((scanLoop text ws 0 none).2 ++ lastSufPart text ws).get? (i + 1) <;>
      simp only [hpsj, hssj] at hj' <;>
      rw [← hj'] at ht <;>
      simp [hbj_pre] at ht
  | some pv =>
    obtain ⟨hlen_ps, -⟩ := List.get?_eq_some.mp hpsj
    have hslice_s : sliceTx text (wbi.offset + wbi.word.length) wbj.offset
        = some s := by
      cases hpsi : (scanLoop text ws 0 none).1.get? i <;>
        simp only [hssival, hpsi] at hi' <;>
        rw [← hi'] at hs <;>
        simpa using hs
    have hcarry := scanLoop_pre_of_suf text ws 0 none i s
      (by rw [hpair, hslice_s]) hlen_ps
    rw [hpsj] at hcarry
    have hpv : pv = some s := Option.some.inj hcarry
    have hwjpre : wj.pre = pv := by
      cases hssj : ((scanLoop text ws 0 none).2 ++ lastSufPart text ws).get? (i + 1) <;>
        simp only [hpsj, hssj] at hj' <;>
        rw [← hj']
    have hts : s = t := by
      have : some t = some s := by rw [← ht, hwjpre, hpv]
      exact (Option.some.inj this).symm
    refine ⟨hts, ?_⟩
    have hwi_fields : wi.offset = wbi.offset ∧ wi.word = wbi.word := by
      cases hpsi : (scanLoop text ws 0 none).1.get? i <;>
        simp only [hssival, hpsi] at hi' <;>
        rw [← hi'] <;>
        exact ⟨rfl, rfl⟩
    have hwj_off : wj.offset = wbj.offset := by
      cases hssj : ((scanLoop text ws 0 none).2 ++ lastSufPart text ws).get? (i + 1) <;>
        simp only [hpsj, hssj] at hj' <;>
        rw [← hj']
    rw [hwi_fields.1, hwi_fields.2, hwj_off]
    exact hslice_s

/-- Claim C6: after analysis, for adjacent tokens i and i+1, whenever both
words[i].suffix and words[i+1].prefix are defined they are the same string,
namely the slice of the original text strictly between the end of token i
and the start of token i+1. -/
theorem claim_C6_boundary (stemmer : List Char → List Char) (text : List Char)
    (i : Nat) (wi wj : SnipWord) (s t : List Char)
    (hi : (analyze stemmer text).get? i = some wi)
    (hj : (analyze stemmer text).get? (i + 1) = some wj)
    (hs : wi.suf = some s) (ht : wj.pre = some t) :
    s = t ∧ sliceTx text (wi.offset + wi.word.length) wj.offset = some s := by
  have hfields : ∀ w ∈ stem_words stemmer (split_words text),
      w.pre = none ∧ w.suf = none :=
    stem_words_fields stemmer _ (fun w hw =>
      splitGo_fields text 0 0 [] w (by simpa [split_words] using hw))
  exact scan_boundary text (stem_words stemmer (split_words text)) hfields
    i wi wj s t hi hj hs ht

/-- Concrete first token of the analysis of "a b c". -/
def boundaryW0 : SnipWord := ⟨['a'], ['a'], some [], some [' '], none, 0⟩

/-- Concrete second token of the analysis of "a b c". -/
def boundaryW1 : SnipWord := ⟨['b'], ['b'], some [' '], some [' '], none, 2⟩

/-- Claim C6, witness: in "a b c" the suffix of token 0 and the prefix of
token 1 are both the single space between them. -/
theorem claim_C6_witness :
    [' '] = [' '] ∧
    sliceTx ['a', ' ', 'b', ' ', 'c']
      (boundaryW0.offset + boundaryW0.word.length) boundaryW1.offset
      = some [' '] :=
  claim_C6_boundary (fun s => s) ['a', ' ', 'b', ' ', 'c'] 0
    boundaryW0 boundaryW1 [' '] [' ']
    (by decide) (by decide) (by decide) (by decide)

/-! ### Persisted index (Snip::index, doc.rs line 104) -/

/-- One row of the snip_index_rs table: term, document uuid, count, and the
comma-separated positions string, exactly as persisted. -/
structure IndexRow where
  term : List Char
  uuid : Uuid
  count : Nat
  positions : List Char
deriving DecidableEq

/-- Snip::drop_word_indices (doc.rs line 34): DELETE FROM snip_index_rs
WHERE uuid = :uuid. -/
def drop_word_indices (u : Uuid) (db : List IndexRow) : List IndexRow :=
  db.filter (fun r => ¬ r.uuid = u)

/-- The distinct stems of the analysis, in first-occurrence order. The
source accumulates per-stem positions in a HashMap, whose iteration order
is unspecified; the embedding fixes first-occurrence order (the row order
of the table is irrelevant: every query the program issues filters by term
and uuid). -/
def distinctStems (stems : List (List Char)) : List (List Char) :=
  stems.foldl (fun acc s => if s ∈ acc then acc else acc ++ [s]) []

/-- The ordinal positions of the analysis entries whose stem is t: the
enumerate-and-push loop building terms_positions in Snip::index. -/
def positionsOf (stems : List (List Char)) (t : List Char) : List Nat :=
  (stems.enum.filter (fun p => p.2 = t)).map Prod.fst

/-- Snip::index (doc.rs line 104), acting on the stems of the document's
analysis: delete all of the document's rows, then insert one row per
distinct stem carrying its occurrence count and comma-separated positions
(write_word_index, doc.rs line 266; INSERT OR REPLACE is a plain insert
because the table declares no uniqueness constraint). The `terms` count
map the source also builds is never read afterwards and is omitted. -/
def Snip.index (u : Uuid) (stems : List (List Char)) (db : List IndexRow) :
    List IndexRow :=
  drop_word_indices u db ++
    (distinctStems stems).map (fun t =>
      { term := t, uuid := u, count := (positionsOf stems t).length,
        positions := positions_to_string (positionsOf stems t) })

lemma mem_distinctAux (l : List (List Char)) :
    ∀ (acc : List (List Char)) (x : List Char),
      x ∈ l.foldl (fun acc s => if s ∈ acc then acc else acc ++ [s]) acc ↔
        x ∈ acc ∨ x ∈ l := by
  induction l with
  | nil => intro acc x; simp
  | cons a l ih =>
    intro acc x
    simp only [List.foldl_cons]
    rw [ih]
    by_cases ha : a ∈ acc
    · rw [if_pos ha]
      constructor
      · rintro (h | h)
        · exact Or.inl h
        · exact Or.inr (List.mem_cons_of_mem a h)
      · rintro (h | h)
        · exact Or.inl h
        · rcases List.mem_cons.mp h with h | h
          · subst h; exact Or.inl ha
          · exact Or.inr h
    · rw [if_neg ha]
      simp only [List.mem_append, List.mem_singleton, List.mem_cons]
      tauto

lemma nodup_distinctAux (l : List (List Char)) :
    ∀ acc : List (List Char), acc.Nodup →
      (l.foldl (fun acc s => if s ∈ acc then acc else acc ++ [s]) acc).Nodup := by
  induction l with
  | nil => intro acc h; simpa using h
  | cons a l ih =>
    intro acc h
    simp only [List.foldl_cons]
    by_cases ha : a ∈ acc
    · rw [if_pos ha]; exact ih acc h
    · rw [if_neg ha]
      refine ih (acc ++ [a]) ?_
      rw [List.nodup_append]
      refine ⟨h, by simp, ?_⟩
      intro x hx hxa
      simp only [List.mem_singleton] at hxa
      subst hxa
      exact ha hx

lemma distinctStems_mem (stems : List (List Char)) (x : List Char) :
    x ∈ distinctStems stems ↔ x ∈ stems := by
  unfold distinctStems
  rw [mem_distinctAux]
  simp

lemma distinctStems_nodup (stems : List (List Char)) :
    (distinctStems stems).Nodup :=
  nodup_distinctAux stems [] List.nodup_nil

lemma nodup_filter_eq_singleton (l : List (List Char)) (hnd : l.Nodup)
    (a : List Char) (ha : a ∈ l) :
    l.filter (fun x => x = a) = [a] := by
  induction l with
  | nil => simp at ha
  | cons b l ih =>
    rw [List.nodup_cons] at hnd
    rcases List.mem_cons.mp ha with hba | hal
    · subst hba
      have hfil : l.filter (fun x => decide (x = a)) = [] := by
        rw [List.filter_eq_nil_iff]
        intro x hx
        simp only [decide_eq_true_eq]
        intro hxa
        exact hnd.1 (hxa ▸ hx)
      simp [List.filter_cons, hfil]
    · have hba : ¬ (b = a) := by
        intro hba
        exact hnd.1 (hba ▸ hal)
      simp only [List.filter_cons, decide_eq_true_eq, hba, if_false]
      exact ih hnd.2 hal

lemma positionsOf_mem (stems : List (List Char)) (t : List Char) (i : Nat) :
    i ∈ positionsOf stems t ↔ stems.get? i = some t := by
  unfold positionsOf
  simp only [List.mem_map, List.mem_filter, decide_eq_true_eq]
  constructor
  · rintro ⟨⟨j, a⟩, ⟨hmem, hsnd⟩, hfst⟩
    simp only at hsnd hfst
    subst hfst
    subst hsnd
    rw [List.get?_eq_getElem?]
    exact List.mem_enum_iff_getElem?.mp hmem
  · intro h
    refine ⟨(i, t), ⟨?_, rfl⟩, rfl⟩
    rw [List.mem_enum_iff_getElem?, ← List.get?_eq_getElem?]
    exact h

lemma positionsOf_sorted (stems : List (List Char)) (t : List Char) :
    List.Sorted (· < ·) (positionsOf stems t) := by
  unfold positionsOf
  have h1 : (stems.enum.map Prod.fst).Pairwise (· < ·) := by
    rw [List.enum_map_fst]
    exact List.pairwise_lt_range stems.length
  have h2 : stems.enum.Pairwise (fun p q => p.1 < q.1) :=
    List.pairwise_map.mp h1
  have h3 : (stems.enum.filter (fun p => p.2 = t)).Pairwise
      (fun p q => p.1 < q.1) :=
    h2.sublist (List.filter_sublist stems.enum)
  exact List.pairwise_map.mpr h3

lemma positionsOf_length (stems : List (List Char)) (t : List Char) :
    (positionsOf stems t).length = (stems.filter (fun x => x = t)).length := by
  unfold positionsOf
  rw [List.length_map, ← List.countP_eq_length_filter,
    ← List.countP_eq_length_filter]
  conv_rhs => rw [← List.enum_map_snd stems]
  rw [List.countP_map]
  rfl

lemma positionsOf_bound (stems : List (List Char)) (t : List Char) :
    ∀ p ∈ positionsOf stems t, p < stems.length := by
  intro p hp
  rw [positionsOf_mem] at hp
  obtain ⟨hlt, -⟩ := List.get?_eq_some.mp hp
  exact hlt

lemma positionsOf_ne_nil (stems : List (List Char)) (t : List Char)
    (h : t ∈ stems) : positionsOf stems t ≠ [] := by
  obtain ⟨i, hi⟩ := List.get_of_mem h
  have hmem : (i : Nat) ∈ positionsOf stems t := by
    rw [positionsOf_mem]
    rw [List.get?_eq_get i.isLt, hi]
  intro hnil
  rw [hnil] at hmem
  simp at hmem

/-- Claim C2: after index(doc), for every stem S of the document's analysis
there is exactly one persisted row for (doc, S); its count equals the number
of analyzed words whose stem is S, its positions string parses back (for any
document of u64-addressable length) to exactly the zero-based ordinals of
those words, in strictly ascending order. -/
theorem claim_C2_index_consistency (db : List IndexRow) (u : Uuid)
    (stems : List (List Char)) (S : List Char) (hS : S ∈ stems) :
    ((Snip.index u stems db).filter (fun r => r.uuid = u ∧ r.term = S))
      = [{ term := S, uuid := u, count := (positionsOf stems S).length,
           positions := positions_to_string (positionsOf stems S) }]
    ∧ (positionsOf stems S).length = (stems.filter (fun x => x = S)).length
    ∧ List.Sorted (· < ·) (positionsOf stems S)
    ∧ (∀ i : Nat, i ∈ positionsOf stems S ↔ stems.get? i = some S)
    ∧ (stems.length ≤ 2 ^ 64 →
        positions_to_u64 (positions_to_string (positionsOf stems S))
          = some (positionsOf stems S)) := by
  refine ⟨?_, positionsOf_length stems S, positionsOf_sorted stems S,
    fun i => positionsOf_mem stems S i, fun hlen =>
      claim_C8_roundtrip _ (positionsOf_ne_nil stems S hS)
        (fun p hp => lt_of_lt_of_le (positionsOf_bound stems S p hp) hlen)⟩
  unfold Snip.index
  rw [List.filter_append]
  have hdrop : (drop_word_indices u db).filter
      (fun r => decide (r.uuid = u ∧ r.term = S)) = [] := by
    rw [List.filter_eq_nil_iff]
    intro r hr
    unfold drop_word_indices at hr
    rw [List.mem_filter] at hr
    simp only [decide_eq_true_eq] at hr ⊢
    intro hcontra
    exact hr.2 hcontra.1
  have hpred : ((fun r : IndexRow => decide (r.uuid = u ∧ r.term = S)) ∘
      (fun t => ({ term := t, uuid := u,
                   count := (positionsOf stems t).length,
                   positions := positions_to_string (positionsOf stems t) } :
        IndexRow)))
      = fun t => decide (t = S) := by
    funext t
    simp
  rw [hdrop, List.filter_map, hpred,
    nodup_filter_eq_singleton (distinctStems stems) (distinctStems_nodup stems)
      S ((distinctStems_mem stems S).mpr hS)]
  rfl

/-- Stem used by the claim C2 witness. -/
def loremStem : List Char := ['l', 'o', 'r', 'e', 'm']

/-- Claim C2, witness: indexing the two-word analysis ["lorem", "lorem"]
(both words share the stem "lorem") on an empty table yields exactly one
row for the stem. -/
theorem claim_C2_witness :
    ((Snip.index 1 [loremStem, loremStem] []).filter
        (fun r => r.uuid = 1 ∧ r.term = loremStem))
      = [{ term := loremStem, uuid := 1,
           count := (positionsOf [loremStem, loremStem] loremStem).length,
           positions :=
             positions_to_string (positionsOf [loremStem, loremStem] loremStem) }] :=
  (claim_C2_index_consistency [] 1 [loremStem, loremStem] loremStem
    (by decide)).1

/-- Claim C7: re-running index on the same (unchanged) analysis leaves the
table exactly as after the first run: each call deletes all of the
document's rows before writing the same new set, so nothing is duplicated
and nothing drifts. -/
theorem claim_C7_idempotent (db : List IndexRow) (u : Uuid)
    (stems : List (List Char)) :
    Snip.index u stems (Snip.index u stems db) = Snip.index u stems db := by
  unfold Snip.index
  congr 1
  unfold drop_word_indices
  rw [List.filter_append]
  have hnew : ((distinctStems stems).map (fun t =>
      ({ term := t, uuid := u, count := (positionsOf stems t).length,
         positions := positions_to_string (positionsOf stems t) } :
        IndexRow))).filter (fun r => decide (¬ r.uuid = u)) = [] := by
    rw [List.filter_eq_nil_iff]
    intro r hr
    rw [List.mem_map] at hr
    obtain ⟨t, -, rfl⟩ := hr
    simp
  have hidem : (db.filter (fun r => decide (¬ r.uuid = u))).filter
      (fun r => decide (¬ r.uuid = u)) = db.filter (fun r => decide (¬ r.uuid = u)) := by
    rw [List.filter_eq_self]
    intro r hr
    exact (List.mem_filter.mp hr).2
  rw [hnew, hidem, List.append_nil]

/-! ### Structured search (search.rs) -/

/-- SearchMethod (search.rs line 29); carried on the query but never
consulted by search_structured. -/
inductive SearchMethod
  | IndexStem
  | IndexWord
  | Literal
deriving DecidableEq

/-- SearchQuery (search.rs line 8). -/
structure SearchQuery where
  terms_include : List (List Char)
  terms_exclude : List (List Char)
  terms_optional : List (List Char)
  method : SearchMethod
  uuids : List Uuid
deriving DecidableEq

/-- SearchQueryItem (search.rs line 22). The f64 score is always None in
search_structured, so the never-constructed payload is modelled as Unit;
the matches HashMap field (matches is a Lean keyword, so it is named
matchList here) is modelled as an association list in insertion order, the
order of the include terms. -/
structure SearchQueryItem where
  uuid : Uuid
  score : Option Unit
  matchList : List (List Char × List Nat)
deriving DecidableEq

/-- SearchQueryResult (search.rs line 17). -/
structure SearchQueryResult where
  items : List SearchQueryItem
deriving DecidableEq

/-- search_uuids_matching_term (search.rs line 180): SELECT uuid FROM
snip_index_rs WHERE term = :term, in table order. -/
def search_uuids_matching_term (db : List IndexRow) (t : List Char) :
    List Uuid :=
  (db.filter (fun r => r.term = t)).map (fun r => r.uuid)

/-- The include phase of search_structured (search.rs lines 57..72): the
first term's matches seed the candidates (the i == 0 append, with an
immediate break when it is the only term), and each later term filters the
candidates by membership in its own matches (retain_mut). -/
def includeResults (db : List IndexRow) (terms : List (List Char)) :
    List Uuid :=
  match terms with
  | [] => []
  | t :: rest =>
    rest.foldl (fun acc term =>
      acc.filter (fun id => id ∈ search_uuids_matching_term db term))
      (search_uuids_matching_term db t)

/-- The exclude phase (search.rs lines 76..83): the deduplicated union, in
first-appearance order, of every exclude term's matches. -/
def excludeResults (db : List IndexRow) (terms : List (List Char)) :
    List Uuid :=
  terms.foldl (fun acc term =>
    (search_uuids_matching_term db term).foldl
      (fun a r => if r ∈ a then a else a ++ [r]) acc) []

/-- get_term_positions (search.rs line 157): the positions of the first
(uuid, term) row, parsed; the empty list when no row exists. The `none`
case models the panic on a malformed stored positions string. -/
def get_term_positions (db : List IndexRow) (u : Uuid) (t : List Char) :
    Option (List Nat) :=
  match (db.filter (fun r => r.uuid = u ∧ r.term = t)).head? with
  | none => some []
  | some r => positions_to_u64 r.positions

/-- search_structured (search.rs line 46). With explicit query uuids they
are the candidates verbatim and neither index lookup nor exclude filtering
runs; otherwise candidates are the include results minus the exclude
results. Each candidate becomes one item whose matches map every include
term to its stored positions. The outer Option models the position-parse
panic; connection and uuid-parse failures are outside the model. -/
def search_structured (db : List IndexRow) (q : SearchQuery) :
    Option SearchQueryResult :=
  let include_results :=
    if q.uuids = [] then
      (includeResults db q.terms_include).filter
        (fun id => ¬ id ∈ excludeResults db q.terms_exclude)
    else q.uuids
  (mapMOpt (fun u =>
      (mapMOpt (fun t => (get_term_positions db u t).map (fun ps => (t, ps)))
        q.terms_include).map
        (fun ms => { uuid := u, score := none, matchList := ms }))
    include_results).map (fun items => { items := items })

/-- A document's index contains a term: some row carries this (uuid, term)
pair. -/
def hasTerm (db : List IndexRow) (u : Uuid) (t : List Char) : Prop :=
  ∃ r ∈ db, r.uuid = u ∧ r.term = t

/-- Every persisted positions string parses (which index, doc.rs, always
guarantees for the rows it writes). -/
def WellFormedDB (db : List IndexRow) : Prop :=
  ∀ r ∈ db, (positions_to_u64 r.positions).isSome

/-- The stored ordinal positions of a term in a document: the parsed
positions of the first matching row, or the empty list when the document's
index lacks the term. -/
def storedPositions (db : List IndexRow) (u : Uuid) (t : List Char) :
    List Nat :=
  match (db.filter (fun r => r.uuid = u ∧ r.term = t)).head? with
  | none => []
  | some r => (positions_to_u64 r.positions).getD []

/-! ### Lemmas about the structured search -/

lemma mem_search_uuids (db : List IndexRow) (t : List Char) (u : Uuid) :
    u ∈ search_uuids_matching_term db t ↔ hasTerm db u t := by
  unfold search_uuids_matching_term hasTerm
  simp only [List.mem_map, List.mem_filter, decide_eq_true_eq]
  constructor
  · rintro ⟨r, ⟨hdb, hterm⟩, huuid⟩
    exact ⟨r, hdb, huuid, hterm⟩
  · rintro ⟨r, hdb, huuid, hterm⟩
    exact ⟨r, ⟨hdb, hterm⟩, huuid⟩

lemma mem_include_foldl (db : List IndexRow) :
    ∀ (rest : List (List Char)) (init : List Uuid) (u : Uuid),
      u ∈ rest.foldl (fun acc term =>
          acc.filter (fun id => id ∈ search_uuids_matching_term db term)) init
        ↔ u ∈ init ∧ ∀ t ∈ rest, hasTerm db u t := by
  intro rest
  induction rest with
  | nil => intro init u; simp
  | cons t rest ih =>
    intro init u
    simp only [List.foldl_cons]
    rw [ih]
    rw [List.mem_filter]
    simp only [decide_eq_true_eq, List.mem_cons, mem_search_uuids]
    constructor
    · rintro ⟨⟨h1, h2⟩, h3⟩
      exact ⟨h1, fun x hx => by
        rcases hx with hx | hx
        · subst hx; exact h2
        · exact h3 x hx⟩
    · rintro ⟨h1, h2⟩
      exact ⟨⟨h1, h2 t (Or.inl rfl)⟩, fun x hx => h2 x (Or.inr hx)⟩

lemma mem_includeResults (db : List IndexRow) (t0 : List Char)
    (rest : List (List Char)) (u : Uuid) :
    u ∈ includeResults db (t0 :: rest) ↔ ∀ t ∈ t0 :: rest, hasTerm db u t := by
  unfold includeResults
  rw [mem_include_foldl, mem_search_uuids]
  simp only [List.mem_cons]
  constructor
  · rintro ⟨h1, h2⟩ x hx
    rcases hx with hx | hx
    · subst hx; exact h1
    · exact h2 x hx
  · intro h
    exact ⟨h t0 (Or.inl rfl), fun x hx => h x (Or.inr hx)⟩

lemma mem_union_foldl (xs : List Uuid) :
    ∀ (acc : List Uuid) (u : Uuid),
      u ∈ xs.foldl (fun a r => if r ∈ a then a else a ++ [r]) acc ↔
        u ∈ acc ∨ u ∈ xs := by
  induction xs with
  | nil => intro acc u; simp
  | cons x xs ih =>
    intro acc u
    simp only [List.foldl_cons]
    rw [ih]
    by_cases hx : x ∈ acc
    · rw [if_pos hx]
      simp only [List.mem_cons]
      constructor
      · rintro (h | h)
        · exact Or.inl h
        · exact Or.inr (Or.inr h)
      · rintro (h | h | h)
        · exact Or.inl h
        · subst h; exact Or.inl hx
        · exact Or.inr h
    · rw [if_neg hx]
      simp only [List.mem_append, List.mem_singleton, List.mem_cons]
      tauto

lemma mem_excludeResults (db : List IndexRow) (terms : List (List Char))
    (u : Uuid) :
    u ∈ excludeResults db terms ↔ ∃ t ∈ terms, hasTerm db u t := by
  unfold excludeResults
  suffices h : ∀ (ts : List (List Char)) (acc : List Uuid),
      u ∈ ts.foldl (fun acc term =>
        (search_uuids_matching_term db term).foldl
          (fun a r => if r ∈ a then a else a ++ [r]) acc) acc ↔
        u ∈ acc ∨ ∃ t ∈ ts, hasTerm db u t by
    rw [h terms []]
    simp
  intro ts
  induction ts with
  | nil => intro acc; simp
  | cons t ts ih =>
    intro acc
    simp only [List.foldl_cons]
    rw [ih, mem_union_foldl, mem_search_uuids]
    simp only [List.mem_cons]
    constructor
    · rintro ((h | h) | ⟨x, hx, hh⟩)
      · exact Or.inl h
      · exact Or.inr ⟨t, Or.inl rfl, h⟩
      · exact Or.inr ⟨x, Or.inr hx, hh⟩
    · rintro (h | ⟨x, hx | hx, hh⟩)
      · exact Or.inl (Or.inl h)
      · subst hx; exact Or.inl (Or.inr hh)
      · exact Or.inr ⟨x, hx, hh⟩

lemma mapMOpt_congr_some (f : α → Option β) (g : α → β) (l : List α)
    (h : ∀ x ∈ l, f x = some (g x)) :
    mapMOpt f l = some (l.map g) := by
  induction l with
  | nil => rfl
  | cons a l ih =>
    simp only [mapMOpt, h a (List.mem_cons_self a l),
      ih (fun x hx => h x (List.mem_cons_of_mem a hx)), List.map_cons]

lemma get_term_positions_wf (db : List IndexRow) (u : Uuid) (t : List Char)
    (hwf : WellFormedDB db) :
    get_term_positions db u t = some (storedPositions db u t) := by
  unfold get_term_positions storedPositions
  cases hh : (db.filter (fun r => decide (r.uuid = u ∧ r.term = t))).head? with
  | none => rfl
  | some r =>
    have hr : r ∈ db := by
      have hmem : r ∈ db.filter (fun r => decide (r.uuid = u ∧ r.term = t)) :=
        List.mem_of_mem_head? (by rw [hh]; rfl)
      exact (List.mem_filter.mp hmem).1
    obtain ⟨ps, hps⟩ := Option.isSome_iff_exists.mp (hwf r hr)
    show positions_to_u64 r.positions
      = some ((positions_to_u64 r.positions).getD [])
    rw [hps]
    rfl

lemma search_structured_wf (db : List IndexRow) (q : SearchQuery)
    (hwf : WellFormedDB db) :
    search_structured db q = some
      { items := (if q.uuids = [] then
            (includeResults db q.terms_include).filter
              (fun id => ¬ id ∈ excludeResults db q.terms_exclude)
          else q.uuids).map (fun u =>
            { uuid := u, score := none,
              matchList := q.terms_include.map
                (fun t => (t, storedPositions db u t)) }) } := by
  have hin : ∀ u : Uuid,
      mapMOpt (fun t => (get_term_positions db u t).map (fun ps => (t, ps)))
        q.terms_include
      = some (q.terms_include.map (fun t => (t, storedPositions db u t))) := by
    intro u
    apply mapMOpt_congr_some
    intro t _
    rw [get_term_positions_wf db u t hwf]
    rfl
  have hout : ∀ us : List Uuid,
      mapMOpt (fun u =>
        (mapMOpt (fun t => (get_term_positions db u t).map (fun ps => (t, ps)))
          q.terms_include).map
          (fun ms => ({ uuid := u, score := none, matchList := ms } :
            SearchQueryItem))) us
      = some (us.map (fun u =>
          ({ uuid := u, score := none,
             matchList := q.terms_include.map
               (fun t => (t, storedPositions db u t)) } : SearchQueryItem))) := by
    intro us
    apply mapMOpt_congr_some
    intro u _
    rw [hin u]
    rfl
  simp only [search_structured]
  rw [hout]
  rfl

/-- Claim C3: with no explicit uuids and at least one include term, the
returned items are exactly the documents whose index contains every include
term and none of the exclude terms. -/
theorem claim_C3_boolean (db : List IndexRow) (q : SearchQuery)
    (hwf : WellFormedDB db) (hu : q.uuids = []) (hinc : q.terms_include ≠ []) :
    ∃ res, search_structured db q = some res ∧
      ∀ u : Uuid, (∃ it ∈ res.items, it.uuid = u) ↔
        ((∀ t ∈ q.terms_include, hasTerm db u t) ∧
         (∀ t ∈ q.terms_exclude, ¬ hasTerm db u t)) := by
  refine ⟨_, search_structured_wf db q hwf, ?_⟩
  intro u
  rw [if_pos hu]
  obtain ⟨t0, rest, hq⟩ : ∃ t0 rest, q.terms_include = t0 :: rest := by
    cases hqq : q.terms_include with
    | nil => exact absurd hqq hinc
    | cons a b => exact ⟨a, b, rfl⟩
  constructor
  · rintro ⟨it, hit, huuid⟩
    rw [List.mem_map] at hit
    obtain ⟨v, hv, rfl⟩ := hit
    have hvu : v = u := huuid
    subst hvu
    rw [List.mem_filter] at hv
    obtain ⟨hv1, hv2⟩ := hv
    constructor
    · rw [hq] at hv1 ⊢
      exact (mem_includeResults db t0 rest v).mp hv1
    · simp only [decide_eq_true_eq] at hv2
      intro t ht hterm
      exact hv2 ((mem_excludeResults db q.terms_exclude v).mpr ⟨t, ht, hterm⟩)
  · rintro ⟨h1, h2⟩
    refine ⟨_, List.mem_map.mpr ⟨u, ?_, rfl⟩, rfl⟩
    rw [List.mem_filter]
    constructor
    · rw [hq]
      exact (mem_includeResults db t0 rest u).mpr (hq ▸ h1)
    · simp only [decide_eq_true_eq]
      intro hmem
      obtain ⟨t, ht, hterm⟩ :=
        (mem_excludeResults db q.terms_exclude u).mp hmem
      exact h2 t ht hterm

/-- Database for the claim C3 witness: T1, T2 in documents 1 and 2, X only
in document 1. -/
def c3db : List IndexRow :=
  [⟨['t', '1'], 1, 1, ['0']⟩, ⟨['t', '2'], 1, 1, ['1']⟩, ⟨['x'], 1, 1, ['2']⟩,
   ⟨['t', '1'], 2, 1, ['0']⟩, ⟨['t', '2'], 2, 1, ['1']⟩]

/-- Query for the claim C3 witness: include T1 and T2, exclude X. -/
def c3q : SearchQuery :=
  ⟨[['t', '1'], ['t', '2']], [['x']], [], SearchMethod.IndexStem, []⟩

/-- Claim C3, witness: the spec's scenario; document 2 (E) matches, and
document 1 (D), which carries the exclude term, does not. -/
theorem claim_C3_witness :
    (∀ r ∈ c3db, (positions_to_u64 r.positions).isSome) ∧
    c3q.uuids = [] ∧ c3q.terms_include ≠ [] ∧
    (∃ res, search_structured c3db c3q = some res ∧
      ∀ u : Uuid, (∃ it ∈ res.items, it.uuid = u) ↔
        ((∀ t ∈ c3q.terms_include, hasTerm c3db u t) ∧
         (∀ t ∈ c3q.terms_exclude, ¬ hasTerm c3db u t))) ∧
    (search_structured c3db c3q).map
      (fun res => res.items.map SearchQueryItem.uuid) = some [2] :=
  ⟨by decide, rfl, by decide,
   claim_C3_boolean c3db c3q (by unfold WellFormedDB; decide) rfl (by decide),
   by decide⟩

/-- Claim C4: with a non-empty explicit uuid list, the result has exactly
one item per supplied uuid in order, built without candidate discovery and
without exclude filtering; each include term maps to its stored position
list, which is empty when the document's index lacks the term. -/
theorem claim_C4_uuid_scoped (db : List IndexRow) (q : SearchQuery)
    (hwf : WellFormedDB db) (hu : q.uuids ≠ []) :
    search_structured db q = some
      { items := q.uuids.map (fun u =>
          { uuid := u, score := none,
            matchList := q.terms_include.map
              (fun t => (t, storedPositions db u t)) }) }
    ∧ ∀ (u : Uuid) (t : List Char), ¬ hasTerm db u t →
        storedPositions db u t = [] := by
  constructor
  · rw [search_structured_wf db q hwf, if_neg hu]
  · intro u t hnot
    unfold storedPositions
    have hfil : db.filter (fun r => decide (r.uuid = u ∧ r.term = t)) = [] := by
      rw [List.filter_eq_nil_iff]
      intro r hr
      simp only [decide_eq_true_eq]
      rintro ⟨h1, h2⟩
      exact hnot ⟨r, hr, h1, h2⟩
    rw [hfil]
    rfl

/-- Database for the claim C4 witness. -/
def c4db : List IndexRow :=
  [⟨['t', '1'], 1, 2, ['0', ',', '2']⟩, ⟨['x'], 1, 1, ['1']⟩]

/-- Query for the claim C4 witness: explicit uuids [1, 7] (7 is unknown to
the index), an include term absent from the index (z), and an exclude term
(x) present in document 1 — which must nevertheless be returned. -/
def c4q : SearchQuery :=
  ⟨[['t', '1'], ['z']], [['x']], [], SearchMethod.IndexStem, [1, 7]⟩

/-- Claim C4, witness. -/
theorem claim_C4_witness :
    (∀ r ∈ c4db, (positions_to_u64 r.positions).isSome) ∧
    c4q.uuids ≠ [] ∧
    (search_structured c4db c4q = some
      { items := c4q.uuids.map (fun u =>
          { uuid := u, score := none,
            matchList := c4q.terms_include.map
              (fun t => (t, storedPositions c4db u t)) }) }
    ∧ ∀ (u : Uuid) (t : List Char), ¬ hasTerm c4db u t →
        storedPositions c4db u t = []) :=
  ⟨by decide, by decide,
   claim_C4_uuid_scoped c4db c4q (by unfold WellFormedDB; decide) (by decide)⟩

/-- Claim C10: with both the include terms and the uuids empty, the search
returns Ok with no items, for every database state and exclude list. -/
theorem claim_C10_empty_query (db : List IndexRow) (q : SearchQuery)
    (hinc : q.terms_include = []) (hu : q.uuids = []) :
    search_structured db q = some { items := [] } := by
  simp only [search_structured, hu, hinc]
  rfl

/-- Database for the claim C10 witness (non-empty, and its lone row even
matches the exclude term). -/
def c10db : List IndexRow := [⟨['x'], 5, 1, ['0']⟩]

/-- Query for the claim C10 witness: no include terms, no uuids, one
exclude term that the database does contain. -/
def c10q : SearchQuery := ⟨[], [['x']], [], SearchMethod.IndexStem, []⟩

/-- Claim C10, witness. -/
theorem claim_C10_witness :
    c10q.terms_include = [] ∧ c10q.uuids = [] ∧
    search_structured c10db c10q = some { items := [] } :=
  ⟨rfl, rfl, claim_C10_empty_query c10db c10q rfl rfl⟩

/-! ### Context window (SnipAnalysis::get_term_context_positions,
analysis.rs line 22) -/

/-- The value of a usize cast `as i64` (analysis.rs line 29): Rust integer
casts truncate to the target width two's-complement, so values at or above
2^63 become negative. -/
def toI64 (n : Nat) : Int :=
  if n % 2 ^ 64 < 2 ^ 63 then ((n % 2 ^ 64 : Nat) : Int)
  else ((n % 2 ^ 64 : Nat) : Int) - 2 ^ 64

/-- Two's-complement wrap of an i64 arithmetic result, as in a release
build; a debug build panics when the subtraction overflows, and the
theorems below stay inside ranges where no overflow occurs. -/
def i64Wrap (z : Int) : Int := (z + 2 ^ 63) % 2 ^ 64 - 2 ^ 63

/-- usize addition (wraps at 2^64 in a release build). -/
def usizeAdd (a b : Nat) : Nat := (a + b) % 2 ^ 64

/-- SnipAnalysis::get_term_context_positions: the start bound comes from
`position as i64 - count as i64` clamped at zero — the casts wrap, so a
width at or above 2^63 + position + 1 makes the difference a large positive
i64 and empties the left context — and the stop bound from clamping
position + 1 to the word count; one pass over the word indices collects the
ordinals before and after the given position. -/
def get_term_context_positions (words : List SnipWord)
    (position count : Nat) : List Nat :=
  let diff : Int := i64Wrap (toI64 position - toI64 count)
  let startPos : Nat := if diff ≤ 0 then 0 else diff.toNat
  let stopPos : Nat :=
    if usizeAdd position 1 > words.length then words.length
    else usizeAdd position 1
  let before :=
    (List.range words.length).filter (fun i => startPos ≤ i ∧ i < position)
  let after :=
    (List.range words.length).filter
      (fun i => position < i ∧ i < usizeAdd stopPos count)
  before ++ position :: after

lemma toI64_small (n : Nat) (h : n < 2 ^ 63) : toI64 n = (n : Int) := by
  unfold toI64
  have h64 : n % 2 ^ 64 = n := Nat.mod_eq_of_lt (by omega)
  rw [h64, if_pos h]

lemma i64Wrap_eq_self (z : Int) (h1 : -(2 ^ 63) ≤ z) (h2 : z < 2 ^ 63) :
    i64Wrap z = z := by
  unfold i64Wrap
  rw [Int.emod_eq_of_lt (by omega) (by omega)]
  omega

lemma get_term_context_positions_eq (words : List SnipWord)
    (position count : Nat) (h : position < words.length)
    (hp : position < 2 ^ 63) (hc : count < 2 ^ 63) :
    get_term_context_positions words position count =
      (List.range words.length).filter
        (fun i => position - count ≤ i ∧ i < position)
      ++ position ::
        (List.range words.length).filter
          (fun i => position < i ∧ i < position + 1 + count) := by
  simp only [get_term_context_positions]
  rw [toI64_small position hp, toI64_small count hc,
    i64Wrap_eq_self _ (by omega) (by omega)]
  have husize1 : usizeAdd position 1 = position + 1 :=
    Nat.mod_eq_of_lt (by omega)
  rw [husize1]
  have hstop : (if position + 1 > words.length then words.length
      else position + 1) = position + 1 := by
    split <;> omega
  rw [hstop]
  have husize2 : usizeAdd (position + 1) count = position + 1 + count :=
    Nat.mod_eq_of_lt (by omega)
  rw [husize2]
  have hstart : (if ((position : Int) - (count : Int) ≤ 0) then (0 : Nat)
      else ((position : Int) - (count : Int)).toNat) = position - count := by
    split <;> omega
  rw [hstart]

/-- Words for the claim C5 counterexample and witness. -/
def c5words : List SnipWord :=
  [⟨['a'], ['a'], none, none, none, 0⟩,
   ⟨['b'], ['b'], none, none, none, 2⟩,
   ⟨['c'], ['c'], none, none, none, 4⟩]

/-- Claim C5, counterexample: for a three-word analysis at position 2 with
width 2^63 + 3, the casts wrap: position as i64 minus count as i64 is the
large positive value 2^63 - 1, so the left context is empty and the
function returns [2], while the claimed inclusive range
[max(0, 2 - width), min(2, 2 + width)] contains ordinal 0 — refuting the
claim's window characterization at i = 0 for this width. -/
theorem claim_C5_counterexample :
    get_term_context_positions c5words 2 (2 ^ 63 + 3) = [2] ∧
    ¬ (0 ∈ get_term_context_positions c5words 2 (2 ^ 63 + 3) ↔
        (2 - (2 ^ 63 + 3) ≤ 0 ∧ 0 ≤ 2 + (2 ^ 63 + 3) ∧
          0 < c5words.length)) := by
  constructor <;> decide

/-- Claim C5, amended: for a position inside the analysis, with the
position and the width below 2^63 (so the i64 casts are value-preserving
and no i64 or usize arithmetic overflows), the context window is exactly
the ordinals of the inclusive range from max(0, position − width) to
min(lastIndex, position + width), in strictly ascending order — never
below 0 nor past the last index. For widths at or above
2^63 + position + 1 the cast wrap empties the left context instead.
(position − count is natural subtraction, that is,
max(0, position − count).) -/
theorem claim_C5_context (words : List SnipWord) (position count : Nat)
    (hpos : position < words.length)
    (hp : position < 2 ^ 63) (hc : count < 2 ^ 63) :
    List.Sorted (· < ·) (get_term_context_positions words position count)
    ∧ ∀ i : Nat, i ∈ get_term_context_positions words position count ↔
        (position - count ≤ i ∧ i ≤ position + count ∧ i < words.length) := by
  rw [get_term_context_positions_eq words position count hpos hp hc]
  have hrange := List.pairwise_lt_range words.length
  constructor
  · unfold List.Sorted
    rw [List.pairwise_append]
    refine ⟨hrange.sublist (List.filter_sublist _), ?_, ?_⟩
    · rw [List.pairwise_cons]
      refine ⟨?_, hrange.sublist (List.filter_sublist _)⟩
      intro b hb
      rw [List.mem_filter] at hb
      simp only [decide_eq_true_eq] at hb
      exact hb.2.1
    · intro a ha b hb
      rw [List.mem_filter] at ha
      simp only [decide_eq_true_eq] at ha
      rcases List.mem_cons.mp hb with hb | hb
      · subst hb; exact ha.2.2
      · rw [List.mem_filter] at hb
        simp only [decide_eq_true_eq] at hb
        omega
  · intro i
    simp only [List.mem_append, List.mem_cons, List.mem_filter,
      List.mem_range, decide_eq_true_eq]
    omega

/-- Claim C5, witness: position 1 with width 5 in a three-word analysis. -/
theorem claim_C5_witness :
    (1 < c5words.length) ∧ ((1 : Nat) < 2 ^ 63) ∧ ((5 : Nat) < 2 ^ 63) ∧
    (List.Sorted (· < ·) (get_term_context_positions c5words 1 5)
    ∧ ∀ i : Nat, i ∈ get_term_context_positions c5words 1 5 ↔
        (1 - 5 ≤ i ∧ i ≤ 1 + 5 ∧ i < c5words.length)) :=
  ⟨by decide, by decide, by decide,
   claim_C5_context c5words 1 5 (by decide) (by decide) (by decide)⟩

/-! ### Term lookup with explicit no-match error (search_index_term,
analysis.rs line 176) -/

/-- SnipError (error.rs). -/
inductive SnipError
  | Analysis (msg : String)
  | General (msg : String)
  | UuidMultipleMatches (msg : String)
  | SearchNoMatches (msg : String)
  | UuidNotFound (msg : String)
deriving DecidableEq

/-- search_index_term (analysis.rs line 176): collect every (uuid,
positions) pair for the term, in table order; an empty collection is the
SearchNoMatches error. The outer Option models the panic on a malformed
positions string. -/
def search_index_term (db : List IndexRow) (t : List Char) :
    Option (Except SnipError (List (Uuid × List Nat))) :=
  let rows := db.filter (fun r => r.term = t)
  match mapMOpt (fun r =>
      (positions_to_u64 r.positions).map (fun ps => (r.uuid, ps))) rows with
  | none => none
  | some results =>
    if results = [] then
      some (Except.error (SnipError.SearchNoMatches "no matches found in index"))
    else some (Except.ok results)

/-- Claim C9: on a well-formed index, search_index_term returns the
SearchNoMatches error exactly when no row carries the term, and otherwise
returns Ok with every (document id, positions) pair for the term — the
error value itself is the function's result, not an empty Ok. -/
theorem claim_C9_no_matches (db : List IndexRow) (t : List Char)
    (hwf : WellFormedDB db) :
    (search_index_term db t = some (Except.error
        (SnipError.SearchNoMatches "no matches found in index"))
      ↔ ∀ r ∈ db, ¬ r.term = t)
    ∧ ((∃ r ∈ db, r.term = t) →
        search_index_term db t = some (Except.ok
          ((db.filter (fun r => r.term = t)).map
            (fun r => (r.uuid, (positions_to_u64 r.positions).getD []))))) := by
  have hmap : mapMOpt (fun r =>
      (positions_to_u64 r.positions).map (fun ps => (r.uuid, ps)))
      (db.filter (fun r => r.term = t))
    = some ((db.filter (fun r => r.term = t)).map
        (fun r => (r.uuid, (positions_to_u64 r.positions).getD []))) := by
    apply mapMOpt_congr_some
    intro r hr
    obtain ⟨ps, hps⟩ := Option.isSome_iff_exists.mp
      (hwf r (List.mem_filter.mp hr).1)
    rw [hps]
    rfl
  have hsit : search_index_term db t =
      if (db.filter (fun r => decide (r.term = t))).map
          (fun r => (r.uuid, (positions_to_u64 r.positions).getD [])) = [] then
        some (Except.error
          (SnipError.SearchNoMatches "no matches found in index"))
      else some (Except.ok ((db.filter (fun r => decide (r.term = t))).map
        (fun r => (r.uuid, (positions_to_u64 r.positions).getD [])))) := by
    simp only [search_index_term]
    rw [hmap]
  constructor
  · rw [hsit]
    constructor
    · intro h
      by_cases hnil : (db.filter (fun r => decide (r.term = t))).map
          (fun r => (r.uuid, (positions_to_u64 r.positions).getD [])) = []
      · rw [List.map_eq_nil, List.filter_eq_nil_iff] at hnil
        intro r hr
        have := hnil r hr
        simpa using this
      · rw [if_neg hnil] at h
        simp at h
    · intro h
      rw [if_pos]
      rw [List.map_eq_nil, List.filter_eq_nil_iff]
      intro r hr
      simpa using h r hr
  · rintro ⟨r, hr, hterm⟩
    rw [hsit, if_neg]
    intro hnil
    rw [List.map_eq_nil, List.filter_eq_nil_iff] at hnil
    have := hnil r hr
    simp only [decide_eq_true_eq] at this
    exact this hterm

/-- Database for the claim C9 witness. -/
def c9db : List IndexRow := [⟨['a'], 1, 1, ['0']⟩]

/-- Claim C9, witness: a term absent from the index produces the
SearchNoMatches error, and a present term produces Ok with its pairs. -/
theorem claim_C9_witness :
    (∀ r ∈ c9db, (positions_to_u64 r.positions).isSome) ∧
    ((search_index_term c9db ['z'] = some (Except.error
        (SnipError.SearchNoMatches "no matches found in index"))
      ↔ ∀ r ∈ c9db, ¬ r.term = ['z'])
    ∧ ((∃ r ∈ c9db, r.term = ['z']) →
        search_index_term c9db ['z'] = some (Except.ok
          ((c9db.filter (fun r => r.term = ['z'])).map
            (fun r => (r.uuid, (positions_to_u64 r.positions).getD [])))))) ∧
    search_index_term c9db ['z'] = some (Except.error
      (SnipError.SearchNoMatches "no matches found in index")) ∧
    search_index_term c9db ['a'] = some (Except.ok [(1, [0])]) :=
  ⟨by decide,
   claim_C9_no_matches c9db ['z'] (by unfold WellFormedDB; decide),
   by rfl, by rfl⟩
